import Mathlib

/-!
# Verification of the distributed Dijkstra implementation in src/dijsktra.c

A shallow embedding of the MPI program mpi_Dijkstra.c (file src/dijsktra.c).
The program partitions the n by n adjacency matrix by columns: with p ranks and
loc_n = n / p, rank r owns global columns [r * loc_n, (r+1) * loc_n).  Because
the ranks run in lockstep and every collective delivers the same value to every
rank, the whole SPMD group is modelled as one deterministic transition system
whose state concatenates the per-rank arrays: global position v = r * loc_n + j
holds rank r, local slot j, so

  rank r local loc_dist[j]  =  dist (r * loc_n + j)
  rank r local loc_pred[j]  =  pred (r * loc_n + j)
  rank r local loc_known[j] =  known (r * loc_n + j)

and, by the block-column scatter built in Build_blk_col_type / Read_matrix,
rank r local loc_mat[i * loc_n + j] = global mat i (r * loc_n + j), so the
combined model reads the global matrix directly.  C int values are modelled as
Int (the numeric-range claim shows all intermediate values fit in 32 bits).
Arrays are total functions; the index-safety claim shows every C access lies
in bounds, and the relaxation and marking loops are guarded by the exact index
ranges the per-rank C loops cover.
-/

set_option autoImplicit false

/-- The no-edge sentinel, line 38 of src/dijsktra.c. -/
def INFINITY : Int := 1000000

/-- Combined per-group state: the concatenation of all per-rank arrays. -/
structure DState where
  dist : Nat → Int
  pred : Nat → Int
  known : Nat → Bool

/-- One iteration of the scan loop in Find_min_dist (lines 325-335):
the accumulator is the pair (shortest_dist, loc_u), started at
(INFINITY, -1); an unvisited vertex with a strictly smaller distance
replaces it. -/
def fmdStep (dist : Nat → Int) (known : Nat → Bool) (acc : Int × Int) (v : Nat) :
    Int × Int :=
  if known v = false ∧ dist v < acc.1 then (dist v, (v : Int)) else acc

/-- The accumulator after scanning local slots 0 .. m-1. -/
def fmdPair (dist : Nat → Int) (known : Nat → Bool) (m : Nat) : Int × Int :=
  (List.range m).foldl (fmdStep dist known) (INFINITY, -1)

/-- Find_min_dist (lines 319-338): returns the local index of the unvisited
vertex of smallest distance, or -1 when no unvisited vertex has distance
strictly below INFINITY.  The C function returns only loc_u; shortest_dist
is the first accumulator component. -/
def Find_min_dist (dist : Nat → Int) (known : Nat → Bool) (loc_n : Nat) : Int :=
  (fmdPair dist known loc_n).2

/-- The candidate pair my_min of rank r (lines 276-287): (loc_dist[loc_u],
loc_u + my_rank * loc_n), or the sentinel (INFINITY, -1) when Find_min_dist
returned -1. -/
def my_min (s : DState) (loc_n r : Nat) : Int × Int :=
  let loc_u : Int :=
    Find_min_dist (fun j => s.dist (r * loc_n + j))
      (fun j => s.known (r * loc_n + j)) loc_n
  if loc_u ≠ -1 then
    (s.dist (r * loc_n + loc_u.toNat), loc_u + ((r * loc_n : Nat) : Int))
  else (INFINITY, -1)

/-- The MPI_MINLOC combiner on MPI_2INT pairs: smaller first component wins,
ties resolved toward the smaller second component. -/
def minloc (a b : Int × Int) : Int × Int :=
  if a.1 < b.1 then a else if b.1 < a.1 then b else if a.2 ≤ b.2 then a else b

/-- Reduction of a list of contributions with minloc (the combiner is
associative and commutative, so any MPI reduction order yields this value).
The empty case is unreachable: MPI_COMM_WORLD has at least one rank. -/
def reduceMinloc : List (Int × Int) → Int × Int
  | [] => (INFINITY, -1)
  | x :: xs => xs.foldl minloc x

/-- The value glbl_min delivered identically to every rank by the
MPI_Allreduce at line 290. -/
def glblMin (s : DState) (loc_n p : Nat) : Int × Int :=
  reduceMinloc ((List.range p).map (my_min s loc_n))

/-- One iteration of the driver loop (lines 274-315), combined over all
ranks.  Returns none when glbl_min[1] = -1 (the break at line 298).
Otherwise, with glbl_u = glbl_min[1] and loc_u = glbl_u % loc_n, EVERY rank
r executes loc_known[loc_u] = 1 (line 300 carries no owner test), i.e. the
combined positions {r * loc_n + (glbl_u % loc_n) | r < p} = every v below
loc_n * p with v % loc_n = glbl_u % loc_n become known; then every rank
relaxes its unvisited slots with new_dist = dist_glbl_u +
loc_mat[glbl_u * loc_n + loc_v], which in global coordinates is
dist_glbl_u + mat glbl_u v. -/
def dijkstra_round (mat : Nat → Nat → Int) (loc_n p : Nat) (s : DState) :
    Option DState :=
  let g := glblMin s loc_n p
  if g.2 = -1 then none
  else
    let glbl_u : Nat := g.2.toNat
    let dist_glbl_u : Int := g.1
    let known1 : Nat → Bool := fun v =>
      if v < loc_n * p ∧ v % loc_n = glbl_u % loc_n then true else s.known v
    let dist1 : Nat → Int := fun v =>
      if v < loc_n * p ∧ known1 v = false ∧ dist_glbl_u + mat glbl_u v < s.dist v
      then dist_glbl_u + mat glbl_u v else s.dist v
    let pred1 : Nat → Int := fun v =>
      if v < loc_n * p ∧ known1 v = false ∧ dist_glbl_u + mat glbl_u v < s.dist v
      then (glbl_u : Int) else s.pred v
    some ⟨dist1, pred1, known1⟩

/-- The driver loop for i = 0 .. n-2 (line 274), with the break modelled by
the none case of dijkstra_round. -/
def dijkstra_loop (mat : Nat → Nat → Int) (loc_n p : Nat) :
    Nat → DState → DState
  | 0, s => s
  | k + 1, s =>
    match dijkstra_round mat loc_n p s with
    | none => s
    | some s' => dijkstra_loop mat loc_n p k s'

/-- Dijkstra_Init (lines 239-257), combined: rank 0 sets loc_known[0] = 1 and
every other rank clears its whole loc_known, so known v holds exactly at
global vertex 0; loc_dist[loc_v] = loc_mat[0 * loc_n + loc_v] is row 0 of the
global matrix; loc_pred is cleared to 0. -/
def Dijkstra_Init (mat : Nat → Nat → Int) : DState :=
  ⟨fun v => mat 0 v, fun _ => 0, fun v => v == 0⟩

/-- Dijkstra (lines 259-317) for n = loc_n * p: initialization followed by at
most n - 1 rounds. -/
def Dijkstra (mat : Nat → Nat → Int) (loc_n p : Nat) : DState :=
  dijkstra_loop mat loc_n p (loc_n * p - 1) (Dijkstra_Init mat)

/-- The global distance array assembled by the MPI_Gather at line 99:
rank r local slot j lands at global index r * loc_n + j, which is exactly
the combined state read off positions 0 .. n-1. -/
def gatherDist (mat : Nat → Nat → Int) (loc_n p : Nat) : List Int :=
  (List.range (loc_n * p)).map (Dijkstra mat loc_n p).dist

/-- The global predecessor array assembled by the MPI_Gather at line 100. -/
def gatherPred (mat : Nat → Nat → Int) (loc_n p : Nat) : List Int :=
  (List.range (loc_n * p)).map (Dijkstra mat loc_n p).pred

/-- The path-reconstruction loop of Print_paths (lines 376-382): starting at
w = v, repeatedly step w = global_pred[w] until w = 0; the first argument of
the recursion counts the steps still allowed.  predIter P m v = 0 states that
the while loop starting from v halts within m iterations. -/
def predIter (P : Nat → Int) : Nat → Nat → Nat
  | 0, w => w
  | k + 1, w => if w = 0 then 0 else predIter P k (P w).toNat

/-- The worker-count configuration step of main (lines 62-90): after reading
n, main computes loc_n = n / p (C integer division, truncating) and proceeds
unconditionally to allocation, Build_blk_col_type and Read_matrix.  There is
no divisibility test and no abort path for n % p ≠ 0; an abort before
distribution would be modelled by none, and the only exit in this region is
the malloc-failure test, whose success path is taken here.  The function
returns the loc_n the run proceeds with. -/
def mainConfig (n p : Nat) : Option Nat := some (n / p)

/-- Number of known vertices across the whole group. -/
def knownCount (s : DState) (n : Nat) : Nat :=
  ((List.range n).filter (fun v => s.known v)).length

/-- Lexicographic comparison on (distance, index) pairs; minloc computes the
lexicographic minimum of its arguments. -/
def lexLe (a b : Int × Int) : Prop := a.1 < b.1 ∨ (a.1 = b.1 ∧ a.2 ≤ b.2)

/-- All distances of the group lie in the interval [0, INFINITY]. -/
def distBounded (s : DState) (n : Nat) : Prop :=
  ∀ v, v < n → 0 ≤ s.dist v ∧ s.dist v ≤ INFINITY

/-- Invariant connecting the predecessor array to an ordering function after
t completed rounds: ord assigns 0 to the source, round number + 1 to each
round winner, and n to every other vertex; the predecessor of any nonzero
vertex has a strictly smaller ord, so predecessor chains are acyclic and
descend to the source. -/
structure ChainInv (n : Nat) (s : DState) (ord : Nat → Nat) (t : Nat) : Prop where
  known0 : s.known 0 = true
  predBnd : ∀ v, v < n → 0 ≤ s.pred v ∧ (s.pred v).toNat < n
  predOrd : ∀ v, v < n → v ≠ 0 →
    ord (s.pred v).toNat < ord v ∧ ord (s.pred v).toNat ≤ t
  ordRange : ∀ v, v < n → ord v ≤ t ∨ ord v = n
  unknownOrd : ∀ v, v < n → s.known v = false → ord v = n
  ordZero : ∀ v, v < n → ord v = 0 → v = 0

/-- The n = 4 scenario matrix of the spec:
rows [0,1,4,INF], [INF,0,2,5], [INF,INF,0,1], [INF,INF,INF,0]. -/
def scenRows : List (List Int) :=
  [[0, 1, 4, 1000000],
   [1000000, 0, 2, 5],
   [1000000, 1000000, 0, 1],
   [1000000, 1000000, 1000000, 0]]

/-- The scenario matrix as a function. -/
def scenMat : Nat → Nat → Int := fun i j => (scenRows.getD i []).getD j 0

/-- The group state of the scenario after one completed round with p = 2
(loc_n = 2). -/
def scenStep : DState := dijkstra_loop scenMat 2 2 1 (Dijkstra_Init scenMat)

/-- C1: the claim asserts that for every p dividing n the produced distance
array equals the sequential Dijkstra result, and that the n = 4 scenario
yields distances [0,1,3,4] for every valid p.  The code violates this: the
mark-known statement at line 300 carries no owner test, so every rank marks
its own local slot glbl_u % loc_n.  With p = 1 (which is the sequential
algorithm) the scenario gives the specified [0,1,3,4] with predecessors
[0,0,1,2], but with p = 2 the run returns [0,1,3,1000000] (vertex 3 is
spuriously marked known by rank 1 in round 0 and never relaxed), and with
p = 4 it returns [0,1,4,1000000].  This theorem evaluates the code at the
failing inputs. -/
theorem scenario_partition_divergence :
    gatherDist scenMat 4 1 = [0, 1, 3, 4] ∧
    gatherPred scenMat 4 1 = [0, 0, 1, 2] ∧
    gatherDist scenMat 2 2 = [0, 1, 3, 1000000] ∧
    gatherDist scenMat 1 4 = [0, 1, 4, 1000000] ∧
    gatherDist scenMat 2 2 ≠ gatherDist scenMat 4 1 := by
  decide

/-- C2: the claim asserts that in the mark-known step only the owner of the
winning vertex U updates its known array.  The code violates this: in round
0 of the scenario with p = 2 the winner is U = 1 (rank 1 / 2 = 0, local slot
1), yet rank 1 (owner of vertices 2 and 3) also executes line 300 and sets
its loc_known[1], i.e. global vertex 3 = 1 * 2 + 1, from false to true.
This theorem evaluates the code at that failing input. -/
theorem nonowner_marks_known :
    (glblMin (Dijkstra_Init scenMat) 2 2).2 = 1 ∧
    (1 : Nat) / 2 = 0 ∧
    (3 : Nat) / 2 = 1 ∧
    (Dijkstra_Init scenMat).known 3 = false ∧
    scenStep.known 3 = true := by
  decide

/-- C3: the claim asserts that every completed round makes exactly one new
vertex known group-wide.  The code violates this: in round 0 of the scenario
with p = 2 the winner is vertex 1 and is not -1, so the round completes, yet
the group-wide known count goes from 1 to 3 (both rank 0 and rank 1 execute
the unguarded line 300).  This theorem evaluates the code at that failing
input. -/
theorem round_marks_two :
    knownCount (Dijkstra_Init scenMat) 4 = 1 ∧
    (glblMin (Dijkstra_Init scenMat) 2 2).2 ≠ -1 ∧
    knownCount scenStep 4 = 3 := by
  decide

/-- C4 counterexample: the claim asserts that when p does not divide n the
program aborts with a fatal configuration error before any distribution.
The code has no such test: at n = 5, p = 2 main computes loc_n = 5 / 2 = 2
by truncating integer division and proceeds (mainConfig returns some 2, not
the abort none). -/
theorem no_divisibility_abort :
    mainConfig 5 2 = some 2 ∧ mainConfig 5 2 ≠ none ∧ ¬ (2 ∣ 5) := by
  decide

/-- C4 amended: when p does not divide n, main performs no check and does
not abort: it proceeds with the silently truncated loc_n = n / p, so the run
covers only p * (n / p) < n columns and the trailing n mod p columns belong
to no rank. -/
theorem truncated_config (n p : Nat) (hp : 0 < p) (hnd : ¬ p ∣ n) :
    mainConfig n p = some (n / p) ∧ p * (n / p) < n := by
  refine ⟨rfl, ?_⟩
  have hmod : n % p ≠ 0 := by
    intro h
    exact hnd (Nat.dvd_iff_mod_eq_zero.mpr h)
  have hdm := Nat.div_add_mod n p
  have hlt : n % p < p := Nat.mod_lt _ hp
  omega

/-- Witness for the amended C4 statement at n = 5, p = 2. -/
theorem truncated_config_witness :
    (0 < 2 ∧ ¬ (2 ∣ 5)) ∧ (mainConfig 5 2 = some (5 / 2) ∧ 2 * (5 / 2) < 5) :=
  ⟨by decide, truncated_config 5 2 (by decide) (by decide)⟩

/-! ## Characterization of minloc and its reduction -/

lemma lexLe_refl (a : Int × Int) : lexLe a a := Or.inr ⟨rfl, le_refl _⟩

lemma lexLe_trans {a b c : Int × Int} (h1 : lexLe a b) (h2 : lexLe b c) :
    lexLe a c := by
  unfold lexLe at *
  omega

lemma minloc_eq_or (a b : Int × Int) : minloc a b = a ∨ minloc a b = b := by
  unfold minloc
  split_ifs <;> simp

lemma minloc_lexLe_left (a b : Int × Int) : lexLe (minloc a b) a := by
  unfold minloc lexLe
  split_ifs <;> simp_all <;> omega

lemma minloc_lexLe_right (a b : Int × Int) : lexLe (minloc a b) b := by
  unfold minloc lexLe
  split_ifs <;> simp_all <;> omega

lemma foldl_minloc_spec (xs : List (Int × Int)) : ∀ a : Int × Int,
    (xs.foldl minloc a = a ∨ xs.foldl minloc a ∈ xs) ∧
    lexLe (xs.foldl minloc a) a ∧ ∀ x ∈ xs, lexLe (xs.foldl minloc a) x := by
  induction xs with
  | nil => exact fun a => ⟨Or.inl rfl, lexLe_refl a, by simp⟩
  | cons x xs ih =>
    intro a
    have hfold : (x :: xs).foldl minloc a = xs.foldl minloc (minloc a x) :=
      rfl
    have h := ih (minloc a x)
    refine ⟨?_, ?_, ?_⟩
    · rw [hfold]
      rcases h.1 with h1 | h1
      · rcases minloc_eq_or a x with h2 | h2
        · exact Or.inl (h1.trans h2)
        · exact Or.inr (by rw [h1, h2]; exact List.mem_cons_self x xs)
      · exact Or.inr (List.mem_cons_of_mem x h1)
    · rw [hfold]
      exact lexLe_trans h.2.1 (minloc_lexLe_left a x)
    · intro y hy
      rw [hfold]
      rcases List.mem_cons.mp hy with rfl | hy
      · exact lexLe_trans h.2.1 (minloc_lexLe_right a y)
      · exact h.2.2 y hy

lemma reduceMinloc_mem {l : List (Int × Int)} (h : l ≠ []) :
    reduceMinloc l ∈ l := by
  cases l with
  | nil => exact absurd rfl h
  | cons x xs =>
    have hred : reduceMinloc (x :: xs) = xs.foldl minloc x := rfl
    rw [hred]
    rcases (foldl_minloc_spec xs x).1 with h1 | h1
    · rw [h1]; exact List.mem_cons_self x xs
    · exact List.mem_cons_of_mem x h1

lemma reduceMinloc_le {l : List (Int × Int)} : ∀ x ∈ l, lexLe (reduceMinloc l) x := by
  cases l with
  | nil => simp
  | cons x xs =>
    intro y hy
    have hred : reduceMinloc (x :: xs) = xs.foldl minloc x := rfl
    rw [hred]
    rcases List.mem_cons.mp hy with rfl | hy
    · exact (foldl_minloc_spec xs y).2.1
    · exact (foldl_minloc_spec xs x).2.2 y hy

/-! ## Characterization of Find_min_dist -/

lemma fmdPair_succ (dist : Nat → Int) (known : Nat → Bool) (m : Nat) :
    fmdPair dist known (m + 1) = fmdStep dist known (fmdPair dist known m) m := by
  unfold fmdPair
  rw [List.range_succ, List.foldl_append]
  rfl

lemma fmdPair_spec (dist : Nat → Int) (known : Nat → Bool) (m : Nat) :
    (fmdPair dist known m = (INFINITY, -1) ∧
      ∀ j, j < m → known j = false → INFINITY ≤ dist j) ∨
    (∃ u, u < m ∧ fmdPair dist known m = (dist u, (u : Int)) ∧
      known u = false ∧ dist u < INFINITY ∧
      (∀ j, j < m → known j = false → dist u ≤ dist j) ∧
      (∀ j, j < m → known j = false → dist j = dist u → u ≤ j)) := by
  induction m with
  | zero =>
    left
    exact ⟨rfl, fun j hj => absurd hj (Nat.not_lt_zero j)⟩
  | succ m ih =>
    rw [fmdPair_succ]
    rcases ih with ⟨hpair, hall⟩ | ⟨u, hu, hpair, hku, hdu, hmin, htie⟩
    · rw [hpair]
      unfold fmdStep
      by_cases hc : known m = false ∧ dist m < INFINITY
      · rw [if_pos hc]
        right
        refine ⟨m, Nat.lt_succ_self m, rfl, hc.1, hc.2, ?_, ?_⟩
        · intro j hj hkj
          rcases Nat.lt_succ_iff_lt_or_eq.mp hj with hj | rfl
          · exact le_trans (le_of_lt hc.2) (hall j hj hkj)
          · exact le_refl _
        · intro j hj hkj hdj
          rcases Nat.lt_succ_iff_lt_or_eq.mp hj with hj | rfl
          · have := hall j hj hkj
            omega
          · exact le_refl _
      · rw [if_neg hc]
        left
        refine ⟨rfl, ?_⟩
        intro j hj hkj
        rcases Nat.lt_succ_iff_lt_or_eq.mp hj with hj | rfl
        · exact hall j hj hkj
        · rw [not_and] at hc
          exact not_lt.mp (hc hkj)
    · rw [hpair]
      unfold fmdStep
      by_cases hc : known m = false ∧ dist m < dist u
      · rw [if_pos hc]
        right
        refine ⟨m, Nat.lt_succ_self m, rfl, hc.1, lt_trans hc.2 hdu, ?_, ?_⟩
        · intro j hj hkj
          rcases Nat.lt_succ_iff_lt_or_eq.mp hj with hj | rfl
          · exact le_trans (le_of_lt hc.2) (hmin j hj hkj)
          · exact le_refl _
        · intro j hj hkj hdj
          rcases Nat.lt_succ_iff_lt_or_eq.mp hj with hj | rfl
          · have := hmin j hj hkj
            omega
          · exact le_refl _
      · rw [if_neg hc]
        right
        refine ⟨u, Nat.lt_succ_of_lt hu, rfl, hku, hdu, ?_, ?_⟩
        · intro j hj hkj
          rcases Nat.lt_succ_iff_lt_or_eq.mp hj with hj | rfl
          · exact hmin j hj hkj
          · rw [not_and] at hc
            exact not_lt.mp (hc hkj)
        · intro j hj hkj hdj
          rcases Nat.lt_succ_iff_lt_or_eq.mp hj with hj | rfl
          · exact htie j hj hkj hdj
          · exact le_of_lt hu

/-! ## Characterization of my_min and the Allreduce winner -/

lemma my_min_spec (s : DState) (loc_n r : Nat) :
    (my_min s loc_n r = (INFINITY, -1) ∧
      ∀ j, j < loc_n → s.known (r * loc_n + j) = false →
        INFINITY ≤ s.dist (r * loc_n + j)) ∨
    (∃ u, u < loc_n ∧
      my_min s loc_n r = (s.dist (r * loc_n + u), ((r * loc_n + u : Nat) : Int)) ∧
      s.known (r * loc_n + u) = false ∧ s.dist (r * loc_n + u) < INFINITY ∧
      (∀ j, j < loc_n → s.known (r * loc_n + j) = false →
        s.dist (r * loc_n + u) ≤ s.dist (r * loc_n + j)) ∧
      (∀ j, j < loc_n → s.known (r * loc_n + j) = false →
        s.dist (r * loc_n + j) = s.dist (r * loc_n + u) → u ≤ j)) := by
  rcases fmdPair_spec (fun j => s.dist (r * loc_n + j))
      (fun j => s.known (r * loc_n + j)) loc_n with
    ⟨hpair, hall⟩ | ⟨u, hu, hpair, hku, hdu, hmin, htie⟩
  · left
    have hF : Find_min_dist (fun j => s.dist (r * loc_n + j))
        (fun j => s.known (r * loc_n + j)) loc_n = -1 := by
      unfold Find_min_dist
      rw [hpair]
    refine ⟨?_, hall⟩
    simp only [my_min, hF]
    simp
  · right
    have hF : Find_min_dist (fun j => s.dist (r * loc_n + j))
        (fun j => s.known (r * loc_n + j)) loc_n = (u : Int) := by
      unfold Find_min_dist
      rw [hpair]
    refine ⟨u, hu, ?_, hku, hdu, hmin, htie⟩
    simp only [my_min, hF]
    have hne : (u : Int) ≠ -1 := by omega
    rw [if_pos hne]
    have h1 : ((u : Int)).toNat = u := by omega
    have h2 : (u : Int) + ((r * loc_n : Nat) : Int) = ((r * loc_n + u : Nat) : Int) := by
      push_cast
      ring
    rw [h1, h2]

lemma my_min_real (s : DState) (loc_n r : Nat) {j : Nat} (hj : j < loc_n)
    (hkj : s.known (r * loc_n + j) = false)
    (hdj : s.dist (r * loc_n + j) < INFINITY) :
    ∃ u, u < loc_n ∧
      my_min s loc_n r = (s.dist (r * loc_n + u), ((r * loc_n + u : Nat) : Int)) ∧
      s.known (r * loc_n + u) = false ∧ s.dist (r * loc_n + u) < INFINITY ∧
      (∀ i, i < loc_n → s.known (r * loc_n + i) = false →
        s.dist (r * loc_n + u) ≤ s.dist (r * loc_n + i)) ∧
      (∀ i, i < loc_n → s.known (r * loc_n + i) = false →
        s.dist (r * loc_n + i) = s.dist (r * loc_n + u) → u ≤ i) := by
  rcases my_min_spec s loc_n r with ⟨_, hall⟩ | hreal
  · exact absurd (hall j hj hkj) (not_le.mpr hdj)
  · exact hreal

lemma glblMin_spec (s : DState) (loc_n p : Nat) (hp : 0 < p) :
    (∃ r, r < p ∧ glblMin s loc_n p = my_min s loc_n r) ∧
    (∀ r, r < p → lexLe (glblMin s loc_n p) (my_min s loc_n r)) := by
  constructor
  · have hne : (List.range p).map (my_min s loc_n) ≠ [] := by
      simp only [ne_eq, List.map_eq_nil_iff, List.range_eq_nil]
      omega
    have hmem := reduceMinloc_mem hne
    rcases List.mem_map.mp hmem with ⟨r, hr, heq⟩
    exact ⟨r, List.mem_range.mp hr, heq.symm⟩
  · intro r hr
    exact reduceMinloc_le _ (List.mem_map_of_mem _ (List.mem_range.mpr hr))

lemma rank_slot_lt {loc_n p r u : Nat} (hr : r < p) (hu : u < loc_n) :
    r * loc_n + u < loc_n * p := by
  have h1 : r * loc_n + u < (r + 1) * loc_n := by
    rw [Nat.succ_mul]
    omega
  have h2 : (r + 1) * loc_n ≤ p * loc_n := Nat.mul_le_mul_right loc_n hr
  have h3 : p * loc_n = loc_n * p := Nat.mul_comm p loc_n
  omega

lemma glblMin_real (s : DState) (loc_n p : Nat) (hp : 0 < p)
    (hne : (glblMin s loc_n p).2 ≠ -1) :
    ∃ w : Nat, w < loc_n * p ∧ glblMin s loc_n p = (s.dist w, (w : Int)) ∧
      s.known w = false ∧ s.dist w < INFINITY := by
  obtain ⟨⟨r, hr, hg⟩, _⟩ := glblMin_spec s loc_n p hp
  rcases my_min_spec s loc_n r with ⟨hs, _⟩ | ⟨u, hu, heq, hku, hdu, _, _⟩
  · rw [hg, hs] at hne
    simp at hne
  · exact ⟨r * loc_n + u, rank_slot_lt hr hu, by rw [hg, heq], hku, hdu⟩

lemma glblMin_min (s : DState) (loc_n p : Nat) (hp : 0 < p) (hl : 0 < loc_n)
    (hne : (glblMin s loc_n p).2 ≠ -1) :
    ∀ v, v < loc_n * p → s.known v = false →
      (glblMin s loc_n p).1 ≤ s.dist v ∧
      (s.dist v = (glblMin s loc_n p).1 → (glblMin s loc_n p).2 ≤ (v : Int)) := by
  obtain ⟨_, hle⟩ := glblMin_spec s loc_n p hp
  obtain ⟨w, hw, hgw, hkw, hdw⟩ := glblMin_real s loc_n p hp hne
  have hg1 : (glblMin s loc_n p).1 = s.dist w := by rw [hgw]
  have hg1INF : (glblMin s loc_n p).1 < INFINITY := by rw [hg1]; exact hdw
  intro v hv hkv
  have hsplit : v = v / loc_n * loc_n + v % loc_n := by
    have h1 := Nat.div_add_mod v loc_n
    have h2 : loc_n * (v / loc_n) = v / loc_n * loc_n := Nat.mul_comm _ _
    omega
  have hr : v / loc_n < p := Nat.div_lt_of_lt_mul hv
  have hj : v % loc_n < loc_n := Nat.mod_lt v hl
  by_cases hvINF : s.dist v < INFINITY
  · obtain ⟨u, hu, hequ, hku2, hdu2, hminu, htieu⟩ :=
      my_min_real s loc_n (v / loc_n) hj (by rw [← hsplit]; exact hkv)
        (by rw [← hsplit]; exact hvINF)
    have hval : s.dist (v / loc_n * loc_n + u) ≤ s.dist v := by
      have := hminu (v % loc_n) hj (by rw [← hsplit]; exact hkv)
      rw [← hsplit] at this
      exact this
    have hlex := hle (v / loc_n) hr
    rw [hequ] at hlex
    unfold lexLe at hlex
    simp only at hlex
    constructor
    · rcases hlex with hlex | ⟨hlex, _⟩
      · exact le_trans (le_of_lt hlex) hval
      · exact le_trans (le_of_eq hlex) hval
    · intro hveq
      have hvalglb : (glblMin s loc_n p).1 ≤ s.dist (v / loc_n * loc_n + u) := by
        rcases hlex with hlex | ⟨hlex, _⟩
        · exact le_of_lt hlex
        · exact le_of_eq hlex
      have hvaleq : s.dist (v / loc_n * loc_n + u) = (glblMin s loc_n p).1 := by
        omega
      have hidx : (glblMin s loc_n p).2 ≤ ((v / loc_n * loc_n + u : Nat) : Int) := by
        rcases hlex with hlex | ⟨_, hlex⟩
        · omega
        · exact hlex
      have huj : u ≤ v % loc_n := by
        apply htieu (v % loc_n) hj (by rw [← hsplit]; exact hkv)
        rw [← hsplit, hveq, hvaleq]
      have hnat : v / loc_n * loc_n + u ≤ v := by omega
      have : ((v / loc_n * loc_n + u : Nat) : Int) ≤ (v : Int) := by
        exact_mod_cast hnat
      omega
  · constructor
    · omega
    · intro hveq
      omega

/-- C5: a rank with no unvisited local vertex contributes the sentinel
candidate (INFINITY, -1) (lines 283-287, via Find_min_dist returning -1),
and the reduced winner index glbl_min[1] is -1 exactly when every rank
contributed the sentinel: the sentinel never wins the MINLOC reduction
unless all p contributions are sentinels, so a winner index of -1 occurs
only at global exhaustion. -/
theorem sentinel_only_at_exhaustion (s : DState) (loc_n p : Nat) (hp : 0 < p) :
    (∀ r, r < p → (∀ j, j < loc_n → s.known (r * loc_n + j) = true) →
      my_min s loc_n r = (INFINITY, -1)) ∧
    ((glblMin s loc_n p).2 = -1 ↔
      ∀ r, r < p → my_min s loc_n r = (INFINITY, -1)) := by
  constructor
  · intro r hr hall
    rcases my_min_spec s loc_n r with ⟨hs, _⟩ | ⟨u, hu, _, hku, _, _, _⟩
    · exact hs
    · rw [hall u hu] at hku
      exact absurd hku (by simp)
  · constructor
    · intro hneg r hr
      rcases my_min_spec s loc_n r with ⟨hs, _⟩ | ⟨u, hu, hequ, _, hdu, _, _⟩
      · exact hs
      · exfalso
        obtain ⟨⟨r0, hr0, hg⟩, hle⟩ := glblMin_spec s loc_n p hp
        have hgsent : glblMin s loc_n p = (INFINITY, -1) := by
          rcases my_min_spec s loc_n r0 with ⟨hs0, _⟩ | ⟨u0, hu0, heq0, _, _, _, _⟩
          · rw [hg, hs0]
          · rw [hg, heq0] at hneg
            have h2 : ((r0 * loc_n + u0 : Nat) : Int) = -1 := hneg
            omega
        have hlex := hle r hr
        unfold lexLe at hlex
        have hf : (my_min s loc_n r).1 = s.dist (r * loc_n + u) := by rw [hequ]
        have hg1 : (glblMin s loc_n p).1 = INFINITY := by rw [hgsent]
        rcases hlex with hlex | ⟨hlex, _⟩ <;> omega
    · intro hall
      obtain ⟨⟨r0, hr0, hg⟩, _⟩ := glblMin_spec s loc_n p hp
      rw [hg, hall r0 hr0]

/-- Witness for C5 on the scenario initial state with p = 2, loc_n = 2. -/
theorem sentinel_only_at_exhaustion_witness :
    (0 < 2) ∧
    ((∀ r, r < 2 → (∀ j, j < 2 → (Dijkstra_Init scenMat).known (r * 2 + j) = true) →
      my_min (Dijkstra_Init scenMat) 2 r = (INFINITY, -1)) ∧
    ((glblMin (Dijkstra_Init scenMat) 2 2).2 = -1 ↔
      ∀ r, r < 2 → my_min (Dijkstra_Init scenMat) 2 r = (INFINITY, -1))) :=
  ⟨by decide, sentinel_only_at_exhaustion (Dijkstra_Init scenMat) 2 2 (by decide)⟩

/-- C6: when the reduced winner is not the sentinel, the pair glbl_min that
the Allreduce delivers (identically to every rank, the reduction being a
single group-wide value in the lockstep model) is an unvisited vertex
carrying its own current distance; that distance is minimal among all
unvisited vertices of the whole group, and any unvisited vertex of equal
distance has a global index no smaller than the winner.  The
characterization mentions no rank and no partition beyond n = loc_n * p, so
on equal minimal distances the smaller-indexed vertex wins the round
regardless of p (finalized first = chosen as this round's winner U). -/
theorem argmin_tiebreak (s : DState) (loc_n p : Nat) (hp : 0 < p)
    (hl : 0 < loc_n) (hne : (glblMin s loc_n p).2 ≠ -1) :
    0 ≤ (glblMin s loc_n p).2 ∧
    (glblMin s loc_n p).2 < ((loc_n * p : Nat) : Int) ∧
    s.known (glblMin s loc_n p).2.toNat = false ∧
    (glblMin s loc_n p).1 = s.dist (glblMin s loc_n p).2.toNat ∧
    (∀ v, v < loc_n * p → s.known v = false →
      (glblMin s loc_n p).1 ≤ s.dist v ∧
      (s.dist v = (glblMin s loc_n p).1 → (glblMin s loc_n p).2 ≤ (v : Int))) := by
  obtain ⟨w, hw, hgw, hkw, _⟩ := glblMin_real s loc_n p hp hne
  have h2 : (glblMin s loc_n p).2 = (w : Int) := by rw [hgw]
  have h1 : (glblMin s loc_n p).1 = s.dist w := by rw [hgw]
  have htn : (glblMin s loc_n p).2.toNat = w := by omega
  exact ⟨by omega, by omega, by rw [htn]; exact hkw, by rw [htn, h1],
    glblMin_min s loc_n p hp hl hne⟩

/-- Witness for C6 on the scenario initial state with p = 2, loc_n = 2:
round 0 winner is vertex 1 with distance 1. -/
theorem argmin_tiebreak_witness :
    ((0 < 2) ∧ (0 < 2) ∧ (glblMin (Dijkstra_Init scenMat) 2 2).2 ≠ -1) ∧
    (0 ≤ (glblMin (Dijkstra_Init scenMat) 2 2).2 ∧
    (glblMin (Dijkstra_Init scenMat) 2 2).2 < ((2 * 2 : Nat) : Int) ∧
    (Dijkstra_Init scenMat).known (glblMin (Dijkstra_Init scenMat) 2 2).2.toNat = false ∧
    (glblMin (Dijkstra_Init scenMat) 2 2).1 =
      (Dijkstra_Init scenMat).dist (glblMin (Dijkstra_Init scenMat) 2 2).2.toNat ∧
    (∀ v, v < 2 * 2 → (Dijkstra_Init scenMat).known v = false →
      (glblMin (Dijkstra_Init scenMat) 2 2).1 ≤ (Dijkstra_Init scenMat).dist v ∧
      ((Dijkstra_Init scenMat).dist v = (glblMin (Dijkstra_Init scenMat) 2 2).1 →
        (glblMin (Dijkstra_Init scenMat) 2 2).2 ≤ (v : Int)))) :=
  ⟨⟨by decide, by decide, by decide⟩,
    argmin_tiebreak (Dijkstra_Init scenMat) 2 2 (by decide) (by decide) (by decide)⟩

/-- C9: every array access of the driver loop body is in bounds.  When the
reduced winner index is -1 the round exits (break at line 298) before the
write loc_known[loc_u] and before any read of matrix row glbl_u; in every
other case glbl_min[1] lies in [0, n) with n = loc_n * p, hence
loc_u = glbl_min[1] % loc_n lies in [0, loc_n) and every relaxation access
glbl_u * loc_n + loc_v lies inside the n * loc_n local block. -/
theorem round_index_safety (mat : Nat → Nat → Int) (s : DState) (loc_n p : Nat)
    (hp : 0 < p) (hl : 0 < loc_n) :
    ((glblMin s loc_n p).2 = -1 → dijkstra_round mat loc_n p s = none) ∧
    ((glblMin s loc_n p).2 ≠ -1 →
      0 ≤ (glblMin s loc_n p).2 ∧
      (glblMin s loc_n p).2 < ((loc_n * p : Nat) : Int) ∧
      (glblMin s loc_n p).2.toNat % loc_n < loc_n ∧
      (∀ lv, lv < loc_n →
        (glblMin s loc_n p).2.toNat * loc_n + lv < loc_n * p * loc_n)) := by
  constructor
  · intro h
    simp only [dijkstra_round]
    rw [if_pos h]
  · intro hne
    obtain ⟨w, hw, hgw, _, _⟩ := glblMin_real s loc_n p hp hne
    have h2 : (glblMin s loc_n p).2 = (w : Int) := by rw [hgw]
    have htn : (glblMin s loc_n p).2.toNat = w := by omega
    refine ⟨by omega, by omega, by rw [htn]; exact Nat.mod_lt w hl, ?_⟩
    intro lv hlv
    rw [htn]
    calc w * loc_n + lv < (w + 1) * loc_n := by rw [Nat.succ_mul]; omega
      _ ≤ loc_n * p * loc_n := Nat.mul_le_mul_right loc_n hw

/-- Witness for C9 on the scenario initial state with p = 2, loc_n = 2. -/
theorem round_index_safety_witness :
    ((0 < 2) ∧ (0 < 2)) ∧
    (((glblMin (Dijkstra_Init scenMat) 2 2).2 = -1 →
      dijkstra_round scenMat 2 2 (Dijkstra_Init scenMat) = none) ∧
    ((glblMin (Dijkstra_Init scenMat) 2 2).2 ≠ -1 →
      0 ≤ (glblMin (Dijkstra_Init scenMat) 2 2).2 ∧
      (glblMin (Dijkstra_Init scenMat) 2 2).2 < ((2 * 2 : Nat) : Int) ∧
      (glblMin (Dijkstra_Init scenMat) 2 2).2.toNat % 2 < 2 ∧
      (∀ lv, lv < 2 →
        (glblMin (Dijkstra_Init scenMat) 2 2).2.toNat * 2 + lv < 2 * 2 * 2))) :=
  ⟨⟨by decide, by decide⟩,
    round_index_safety scenMat (Dijkstra_Init scenMat) 2 2 (by decide) (by decide)⟩

/-! ## Shape of a completed round -/

lemma round_some {mat : Nat → Nat → Int} {loc_n p : Nat} {s s' : DState}
    (h : dijkstra_round mat loc_n p s = some s') :
    (glblMin s loc_n p).2 ≠ -1 ∧
    ∀ v,
      (s'.known v = if v < loc_n * p ∧
          v % loc_n = (glblMin s loc_n p).2.toNat % loc_n then true
        else s.known v) ∧
      (s'.dist v = if v < loc_n * p ∧ s'.known v = false ∧
          (glblMin s loc_n p).1 + mat (glblMin s loc_n p).2.toNat v < s.dist v
        then (glblMin s loc_n p).1 + mat (glblMin s loc_n p).2.toNat v
        else s.dist v) ∧
      (s'.pred v = if v < loc_n * p ∧ s'.known v = false ∧
          (glblMin s loc_n p).1 + mat (glblMin s loc_n p).2.toNat v < s.dist v
        then ((glblMin s loc_n p).2.toNat : Int)
        else s.pred v) := by
  simp only [dijkstra_round] at h
  by_cases hg : (glblMin s loc_n p).2 = -1
  · rw [if_pos hg] at h
    exact absurd h (by simp)
  · rw [if_neg hg] at h
    have h' := Option.some.inj h
    subst h'
    exact ⟨hg, fun v => ⟨rfl, rfl, rfl⟩⟩

lemma round_mono {mat : Nat → Nat → Int} {loc_n p : Nat} {s s' : DState}
    (h : dijkstra_round mat loc_n p s = some s') :
    ∀ v, s'.dist v ≤ s.dist v ∧
      (s.known v = true → s'.dist v = s.dist v ∧ s'.known v = true) := by
  obtain ⟨_, hc⟩ := round_some h
  intro v
  obtain ⟨hk, hd, _⟩ := hc v
  constructor
  · rw [hd]
    split_ifs with hcond
    · exact le_of_lt hcond.2.2
    · exact le_refl _
  · intro hkv
    have hk1 : s'.known v = true := by
      rw [hk]
      split_ifs
      · rfl
      · exact hkv
    have hcf : ¬(v < loc_n * p ∧ s'.known v = false ∧
        (glblMin s loc_n p).1 + mat (glblMin s loc_n p).2.toNat v < s.dist v) := by
      intro hcond
      rw [hk1] at hcond
      simp at hcond
    rw [hd, if_neg hcf]
    exact ⟨rfl, hk1⟩

/-- C7: across any number of rounds from any state, every distance entry is
non-increasing, and a vertex already marked known keeps its distance
unchanged (and stays known) for the remainder of the run: relaxation only
overwrites dist[v] with a strictly smaller value and skips every v with
loc_known[v] set, and loc_known entries are never cleared. -/
theorem dist_monotone (mat : Nat → Nat → Int) (loc_n p : Nat) :
    ∀ (k : Nat) (s : DState) (v : Nat),
      (dijkstra_loop mat loc_n p k s).dist v ≤ s.dist v ∧
      (s.known v = true →
        (dijkstra_loop mat loc_n p k s).dist v = s.dist v ∧
        (dijkstra_loop mat loc_n p k s).known v = true) := by
  intro k
  induction k with
  | zero => exact fun s v => ⟨le_refl _, fun h => ⟨rfl, h⟩⟩
  | succ k ih =>
    intro s v
    cases hround : dijkstra_round mat loc_n p s with
    | none =>
      have hloop : dijkstra_loop mat loc_n p (k + 1) s = s := by
        simp [dijkstra_loop, hround]
      rw [hloop]
      exact ⟨le_refl _, fun h => ⟨rfl, h⟩⟩
    | some s' =>
      have hloop : dijkstra_loop mat loc_n p (k + 1) s =
          dijkstra_loop mat loc_n p k s' := by
        simp [dijkstra_loop, hround]
      rw [hloop]
      have hm := round_mono hround v
      have hih := ih s' v
      constructor
      · exact le_trans hih.1 hm.1
      · intro hkv
        obtain ⟨hde, hke⟩ := hm.2 hkv
        obtain ⟨hde2, hke2⟩ := hih.2 hke
        exact ⟨by rw [hde2, hde], hke2⟩

/-- Witness for C7 on the scenario with p = 2, loc_n = 2, all three rounds,
at the source vertex (known from initialization). -/
theorem dist_monotone_witness :
    (Dijkstra_Init scenMat).known 0 = true ∧
    ((dijkstra_loop scenMat 2 2 3 (Dijkstra_Init scenMat)).dist 0 ≤
        (Dijkstra_Init scenMat).dist 0 ∧
      ((dijkstra_loop scenMat 2 2 3 (Dijkstra_Init scenMat)).dist 0 =
          (Dijkstra_Init scenMat).dist 0 ∧
        (dijkstra_loop scenMat 2 2 3 (Dijkstra_Init scenMat)).known 0 = true)) :=
  ⟨by decide, (dist_monotone scenMat 2 2 3 (Dijkstra_Init scenMat) 0).1,
    (dist_monotone scenMat 2 2 3 (Dijkstra_Init scenMat) 0).2 (by decide)⟩

/-! ## Distance range invariants -/

lemma glblMin_val_bounds (s : DState) (loc_n p : Nat) (hp : 0 < p)
    (hB : ∀ v, v < loc_n * p → 0 ≤ s.dist v ∧ s.dist v ≤ INFINITY) :
    0 ≤ (glblMin s loc_n p).1 ∧ (glblMin s loc_n p).1 ≤ INFINITY := by
  obtain ⟨⟨r, hr, hg⟩, _⟩ := glblMin_spec s loc_n p hp
  rcases my_min_spec s loc_n r with ⟨hs, _⟩ | ⟨u, hu, heq, _, _, _, _⟩
  · rw [hg, hs]
    exact ⟨by decide, le_refl _⟩
  · have hb := hB _ (rank_slot_lt hr hu)
    rw [hg, heq]
    exact ⟨hb.1, hb.2⟩

lemma round_bounds {mat : Nat → Nat → Int} {loc_n p : Nat} {s s' : DState}
    (hp : 0 < p)
    (hmat : ∀ i, i < loc_n * p → ∀ j, j < loc_n * p →
      0 ≤ mat i j ∧ mat i j ≤ INFINITY)
    (hB : ∀ v, v < loc_n * p → 0 ≤ s.dist v ∧ s.dist v ≤ INFINITY)
    (h : dijkstra_round mat loc_n p s = some s') :
    ∀ v, v < loc_n * p → 0 ≤ s'.dist v ∧ s'.dist v ≤ INFINITY := by
  obtain ⟨hg, hc⟩ := round_some h
  obtain ⟨w, hw, hgw, _, _⟩ := glblMin_real s loc_n p hp hg
  have h2 : (glblMin s loc_n p).2 = (w : Int) := by rw [hgw]
  have htn : (glblMin s loc_n p).2.toNat = w := by omega
  have hval := glblMin_val_bounds s loc_n p hp hB
  intro v hv
  obtain ⟨_, hd, _⟩ := hc v
  rw [hd]
  split_ifs with hcond
  · rw [htn]
    have hm := hmat w hw v hv
    have h1 := hval.1
    have hbv := (hB v hv).2
    have hlt := hcond.2.2
    rw [htn] at hlt
    omega
  · exact hB v hv

lemma loop_bounds (mat : Nat → Nat → Int) (loc_n p : Nat) (hp : 0 < p)
    (hmat : ∀ i, i < loc_n * p → ∀ j, j < loc_n * p →
      0 ≤ mat i j ∧ mat i j ≤ INFINITY) :
    ∀ (k : Nat) (s : DState),
      (∀ v, v < loc_n * p → 0 ≤ s.dist v ∧ s.dist v ≤ INFINITY) →
      ∀ v, v < loc_n * p →
        0 ≤ (dijkstra_loop mat loc_n p k s).dist v ∧
        (dijkstra_loop mat loc_n p k s).dist v ≤ INFINITY := by
  intro k
  induction k with
  | zero => exact fun s hB => hB
  | succ k ih =>
    intro s hB
    cases hround : dijkstra_round mat loc_n p s with
    | none =>
      have hloop : dijkstra_loop mat loc_n p (k + 1) s = s := by
        simp [dijkstra_loop, hround]
      rw [hloop]
      exact hB
    | some s' =>
      have hloop : dijkstra_loop mat loc_n p (k + 1) s =
          dijkstra_loop mat loc_n p k s' := by
        simp [dijkstra_loop, hround]
      rw [hloop]
      exact ih s' (round_bounds hp hmat hB hround)

/-- C8: with every weight an integer in [0, INFINITY] (INFINITY = 1000000
being the no-edge sentinel), every distance entry stays in [0, INFINITY] at
every state the run reaches, every relaxation sum dist_glbl_u + weight lies
in [0, 2000000], and 2000000 is below 2^31, so the int arithmetic of the C
program never overflows; moreover a relaxation through a sentinel edge never
lowers dist[v] (the candidate is at least INFINITY, which is at least the
current value), so it never updates dist[v]. -/
theorem arithmetic_bounds (mat : Nat → Nat → Int) (loc_n p : Nat) (hp : 0 < p)
    (hl : 0 < loc_n)
    (hmat : ∀ i, i < loc_n * p → ∀ j, j < loc_n * p →
      0 ≤ mat i j ∧ mat i j ≤ INFINITY)
    (k : Nat) (s : DState)
    (hs : s = dijkstra_loop mat loc_n p k (Dijkstra_Init mat)) :
    (∀ v, v < loc_n * p → 0 ≤ s.dist v ∧ s.dist v ≤ INFINITY) ∧
    ((glblMin s loc_n p).2 ≠ -1 → ∀ v, v < loc_n * p →
      (0 ≤ (glblMin s loc_n p).1 + mat (glblMin s loc_n p).2.toNat v ∧
        (glblMin s loc_n p).1 + mat (glblMin s loc_n p).2.toNat v ≤ 2000000) ∧
      (2000000 : Int) < 2 ^ 31 ∧
      (mat (glblMin s loc_n p).2.toNat v = INFINITY →
        s.dist v ≤ (glblMin s loc_n p).1 + mat (glblMin s loc_n p).2.toNat v)) := by
  have hInit : ∀ v, v < loc_n * p → 0 ≤ (Dijkstra_Init mat).dist v ∧
      (Dijkstra_Init mat).dist v ≤ INFINITY := by
    intro v hv
    exact hmat 0 (Nat.mul_pos hl hp) v hv
  have hB : ∀ v, v < loc_n * p → 0 ≤ s.dist v ∧ s.dist v ≤ INFINITY := by
    rw [hs]
    exact loop_bounds mat loc_n p hp hmat k (Dijkstra_Init mat) hInit
  refine ⟨hB, ?_⟩
  intro hne v hv
  obtain ⟨w, hw, hgw, _, _⟩ := glblMin_real s loc_n p hp hne
  have h2 : (glblMin s loc_n p).2 = (w : Int) := by rw [hgw]
  have htn : (glblMin s loc_n p).2.toNat = w := by omega
  have hval := glblMin_val_bounds s loc_n p hp hB
  have hm := hmat w hw v hv
  have hbv := (hB v hv).2
  rw [htn]
  simp only [INFINITY] at hval hm hbv
  refine ⟨by omega, by norm_num, ?_⟩
  intro hsent
  simp only [INFINITY] at hsent
  omega

/-- Witness for C8 on the scenario with p = 2, loc_n = 2, after one round. -/
theorem arithmetic_bounds_witness :
    ((0 < 2) ∧ (0 < 2) ∧
      (∀ i, i < 2 * 2 → ∀ j, j < 2 * 2 → 0 ≤ scenMat i j ∧ scenMat i j ≤ INFINITY) ∧
      scenStep = dijkstra_loop scenMat 2 2 1 (Dijkstra_Init scenMat)) ∧
    ((∀ v, v < 2 * 2 → 0 ≤ scenStep.dist v ∧ scenStep.dist v ≤ INFINITY) ∧
      ((glblMin scenStep 2 2).2 ≠ -1 → ∀ v, v < 2 * 2 →
        (0 ≤ (glblMin scenStep 2 2).1 + scenMat (glblMin scenStep 2 2).2.toNat v ∧
          (glblMin scenStep 2 2).1 + scenMat (glblMin scenStep 2 2).2.toNat v ≤ 2000000) ∧
        (2000000 : Int) < 2 ^ 31 ∧
        (scenMat (glblMin scenStep 2 2).2.toNat v = INFINITY →
          scenStep.dist v ≤
            (glblMin scenStep 2 2).1 + scenMat (glblMin scenStep 2 2).2.toNat v))) :=
  ⟨⟨by decide, by decide, by decide, rfl⟩,
    arithmetic_bounds scenMat 2 2 (by decide) (by decide) (by decide) 1 scenStep rfl⟩

/-! ## Predecessor chains -/

lemma chainInv_init (mat : Nat → Nat → Int) (n : Nat) (hn : 0 < n) :
    ChainInv n (Dijkstra_Init mat) (fun v => if v = 0 then 0 else n) 0 := by
  refine ⟨rfl, ?_, ?_, ?_, ?_, ?_⟩
  · intro v hv
    refine ⟨le_refl 0, ?_⟩
    show ((0 : Int)).toNat < n
    omega
  · intro v hv hv0
    have htn : (((Dijkstra_Init mat).pred v)).toNat = 0 := rfl
    have e0 : (if (0 : Nat) = 0 then 0 else n) = 0 := by simp
    have ev : (if v = 0 then 0 else n) = n := by simp [hv0]
    rw [htn]
    show (if (0 : Nat) = 0 then 0 else n) < (if v = 0 then 0 else n) ∧
      (if (0 : Nat) = 0 then 0 else n) ≤ 0
    rw [e0, ev]
    omega
  · intro v hv
    by_cases hv0 : v = 0
    · simp [hv0]
    · simp [hv0]
  · intro v hv hkv
    have hv0 : v ≠ 0 := by
      intro h0
      rw [h0] at hkv
      simp [Dijkstra_Init] at hkv
    simp [hv0]
  · intro v hv h0
    by_cases hv0 : v = 0
    · exact hv0
    · rw [if_neg hv0] at h0
      omega

lemma chainInv_round {mat : Nat → Nat → Int} {loc_n p : Nat} {s s' : DState}
    (hp : 0 < p) {ord : Nat → Nat} {t : Nat}
    (hinv : ChainInv (loc_n * p) s ord t) (ht : t + 1 < loc_n * p)
    (h : dijkstra_round mat loc_n p s = some s') :
    ∃ ord2 : Nat → Nat, ChainInv (loc_n * p) s' ord2 (t + 1) := by
  obtain ⟨hg, hc⟩ := round_some h
  obtain ⟨w, hw, hgw, hkw, _⟩ := glblMin_real s loc_n p hp hg
  have h2 : (glblMin s loc_n p).2 = (w : Int) := by rw [hgw]
  have htn : (glblMin s loc_n p).2.toNat = w := by omega
  rw [htn] at hc
  have hw0 : w ≠ 0 := by
    intro h0
    rw [h0, hinv.known0] at hkw
    exact absurd hkw (by simp)
  have hordw : ord w = loc_n * p := hinv.unknownOrd w hw hkw
  have hknown_mono : ∀ v, s.known v = true → s'.known v = true := by
    intro v hv
    obtain ⟨hk, _, _⟩ := hc v
    rw [hk]
    split_ifs
    · rfl
    · exact hv
  have hknown_w : s'.known w = true := by
    obtain ⟨hk, _, _⟩ := hc w
    rw [hk, if_pos ⟨hw, rfl⟩]
  have hkfalse : ∀ v, s'.known v = false → s.known v = false ∧ v ≠ w := by
    intro v hv
    obtain ⟨hk, _, _⟩ := hc v
    rw [hk] at hv
    constructor
    · by_cases hcond : v < loc_n * p ∧ v % loc_n = w % loc_n
      · rw [if_pos hcond] at hv
        exact absurd hv (by simp)
      · rw [if_neg hcond] at hv
        exact hv
    · intro heq
      rw [heq] at hv
      rw [if_pos ⟨hw, rfl⟩] at hv
      exact absurd hv (by simp)
  have key : ∀ ord2 : Nat → Nat, ord2 w = t + 1 →
      (∀ x, x ≠ w → ord2 x = ord x) → ChainInv (loc_n * p) s' ord2 (t + 1) := by
    intro ord2 hw2 hne2
    refine ⟨hknown_mono 0 hinv.known0, ?_, ?_, ?_, ?_, ?_⟩
    · intro v hv
      obtain ⟨_, _, hpred⟩ := hc v
      rw [hpred]
      split_ifs with hcond
      · constructor
        · positivity
        · show (((w : Nat) : Int)).toNat < loc_n * p
          omega
      · exact hinv.predBnd v hv
    · intro v hv hv0
      obtain ⟨_, _, hpred⟩ := hc v
      by_cases hC : v < loc_n * p ∧ s'.known v = false ∧
          (glblMin s loc_n p).1 + mat w v < s.dist v
      · have hvne : v ≠ w := (hkfalse v hC.2.1).2
        have hvun : s.known v = false := (hkfalse v hC.2.1).1
        have hordv : ord v = loc_n * p := hinv.unknownOrd v hv hvun
        rw [hpred, if_pos hC]
        have htnw : (((w : Nat) : Int)).toNat = w := by omega
        rw [htnw, hw2, hne2 v hvne, hordv]
        omega
      · rw [hpred, if_neg hC]
        have hold := hinv.predOrd v hv hv0
        have hpne : (s.pred v).toNat ≠ w := by
          intro heq
          have h2t := hold.2
          rw [heq, hordw] at h2t
          omega
        rw [hne2 _ hpne]
        by_cases hvw : v = w
        · have hov : ord2 v = t + 1 := by rw [hvw]; exact hw2
          rw [hov]
          omega
        · rw [hne2 v hvw]
          omega
    · intro v hv
      by_cases hvw : v = w
      · have hov : ord2 v = t + 1 := by rw [hvw]; exact hw2
        rw [hov]
        omega
      · rw [hne2 v hvw]
        rcases hinv.ordRange v hv with hcase | hcase
        · omega
        · omega
    · intro v hv hkv
      obtain ⟨hvun, hvne⟩ := hkfalse v hkv
      rw [hne2 v hvne]
      exact hinv.unknownOrd v hv hvun
    · intro v hv h0
      by_cases hvw : v = w
      · have hov : ord2 v = t + 1 := by rw [hvw]; exact hw2
        rw [hov] at h0
        omega
      · rw [hne2 v hvw] at h0
        exact hinv.ordZero v hv h0
  exact ⟨fun x => if x = w then t + 1 else ord x, key _ (by simp) (fun x hx => by simp [hx])⟩

lemma chainInv_loop (mat : Nat → Nat → Int) (loc_n p : Nat) (hp : 0 < p) :
    ∀ (fuel : Nat) (s : DState) (ord : Nat → Nat) (t : Nat),
      ChainInv (loc_n * p) s ord t → t + fuel + 1 ≤ loc_n * p →
      ∃ (ord' : Nat → Nat) (t' : Nat), t' + 1 ≤ loc_n * p ∧
        ChainInv (loc_n * p) (dijkstra_loop mat loc_n p fuel s) ord' t' := by
  intro fuel
  induction fuel with
  | zero =>
    intro s ord t hinv hle
    exact ⟨ord, t, by omega, hinv⟩
  | succ fuel ih =>
    intro s ord t hinv hle
    cases hround : dijkstra_round mat loc_n p s with
    | none =>
      have hloop : dijkstra_loop mat loc_n p (fuel + 1) s = s := by
        simp [dijkstra_loop, hround]
      rw [hloop]
      exact ⟨ord, t, by omega, hinv⟩
    | some s' =>
      have hloop : dijkstra_loop mat loc_n p (fuel + 1) s =
          dijkstra_loop mat loc_n p fuel s' := by
        simp [dijkstra_loop, hround]
      rw [hloop]
      obtain ⟨ord2, hinv2⟩ := chainInv_round hp hinv (by omega) hround
      exact ih s' ord2 (t + 1) hinv2 (by omega)

lemma chain_reaches {n : Nat} {s : DState} {ord : Nat → Nat} {t : Nat}
    (hinv : ChainInv n s ord t) :
    ∀ (m v : Nat), v < n → ord v ≤ m → predIter s.pred m v = 0 := by
  intro m
  induction m with
  | zero =>
    intro v hv h0
    have hv0 : v = 0 := hinv.ordZero v hv (Nat.le_zero.mp h0)
    show predIter s.pred 0 v = 0
    rw [predIter, hv0]
  | succ m ih =>
    intro v hv hm
    by_cases hv0 : v = 0
    · simp [predIter, hv0]
    · have hstep : predIter s.pred (m + 1) v = predIter s.pred m ((s.pred v).toNat) := by
        simp [predIter, hv0]
      rw [hstep]
      have hord := hinv.predOrd v hv hv0
      exact ih _ (hinv.predBnd v hv).2 (by omega)

/-- C10: in the final predecessor array of the run (as gathered for
Print_paths), every entry is a vertex index in [0, n), and following pred
links backward from any vertex v < n (including vertices left unreachable,
whose pred keeps the initial 0) reaches vertex 0 within n steps: the
predecessor graph is acyclic with every chain ending at the source, so the
while loop of Print_paths terminates for every vertex.  The proof maintains
an ordering in which the source has rank 0, the round-i winner rank i+1,
and unfinalized vertices rank n; each predecessor entry written by the
relaxation step is the round winner, whose rank is strictly below the rank
of the vertex being relaxed. -/
theorem pred_chain_reaches_source (mat : Nat → Nat → Int) (loc_n p : Nat)
    (hp : 0 < p) (hl : 0 < loc_n) :
    ∀ v, v < loc_n * p →
      (0 ≤ (Dijkstra mat loc_n p).pred v ∧
        ((Dijkstra mat loc_n p).pred v).toNat < loc_n * p) ∧
      predIter (Dijkstra mat loc_n p).pred (loc_n * p) v = 0 := by
  have hn : 0 < loc_n * p := Nat.mul_pos hl hp
  obtain ⟨ord, t, hle, hinv⟩ :=
    chainInv_loop mat loc_n p hp (loc_n * p - 1) (Dijkstra_Init mat)
      (fun v => if v = 0 then 0 else loc_n * p) 0
      (chainInv_init mat (loc_n * p) hn) (by omega)
  simp only [Dijkstra]
  intro v hv
  refine ⟨hinv.predBnd v hv, ?_⟩
  apply chain_reaches hinv
  · exact hv
  · rcases hinv.ordRange v hv with hcase | hcase
    · omega
    · omega

/-- Witness for C10 on the scenario with p = 2, loc_n = 2, at vertex 3
(left unreachable by the buggy run, pred stays 0). -/
theorem pred_chain_reaches_source_witness :
    ((0 < 2) ∧ (0 < 2)) ∧
    ((0 ≤ (Dijkstra scenMat 2 2).pred 3 ∧
        ((Dijkstra scenMat 2 2).pred 3).toNat < 2 * 2) ∧
      predIter (Dijkstra scenMat 2 2).pred (2 * 2) 3 = 0) :=
  ⟨⟨by decide, by decide⟩,
    pred_chain_reaches_source scenMat 2 2 (by decide) (by decide) 3 (by decide)⟩
